import Mathlib

/-!
Shallow embedding of the employee store (src/manager.py) of the
Employee-Manager-System repository.

The backing file is a delimited text file read with the Python csv reader
and written with the csv writer.  We model file content at the csv row
level: a file content is a `List (List String)`, the sequence of rows the
csv reader yields (a blank line yields the empty row `[]`), and the csv
writer writes exactly the given row sequence.  Python `str.strip` is
modelled by `pystrip`, which removes leading and trailing whitespace
characters from the character list of the string.  Each store operation
takes the current file content and returns the `(ok, message)` pair of the
Python function together with the file content after the call (unchanged
when the operation does not save).
-/

namespace EmployeeManager

/-- Characters of a string with leading and trailing whitespace removed:
the character-list model of Python `str.strip()`. -/
def stripChars (l : List Char) : List Char :=
  ((l.dropWhile Char.isWhitespace).reverse.dropWhile Char.isWhitespace).reverse

/-- Python `str.strip()`. -/
def pystrip (s : String) : String :=
  String.mk (stripChars s.data)

/-- An employee record: the four string fields of `FIELDNAMES`
(src/manager.py line 10). -/
structure Employee where
  id : String
  name : String
  department : String
  role : String
deriving DecidableEq

/-- A file content: the list of csv rows (a blank line is `[]`). -/
abbrev Rows := List (List String)

/-- Body of the row loop of `load_employees` (src/manager.py lines 29-36):
a blank row is skipped; otherwise the fields are stripped, the list is
padded with `""` up to four entries, and the first four entries become the
record. -/
def parse_row (row : List String) : Option Employee :=
  if row = [] then
    none
  else
    let parts := row.map pystrip ++ List.replicate (4 - row.length) ""
    some { id := parts.getD 0 "", name := parts.getD 1 "",
           department := parts.getD 2 "", role := parts.getD 3 "" }

/-- Function `load_employees` of src/manager.py (lines 23-37). -/
def load_employees (rows : Rows) : List Employee :=
  rows.filterMap parse_row

/-- The row the csv writer emits for one record (src/manager.py line 49). -/
def row_of (e : Employee) : List String :=
  [e.id, e.name, e.department, e.role]

/-- Function `atomic_save_employees` of src/manager.py (lines 40-53), seen
as the resulting file content: the full collection, one four-field row per
record. -/
def atomic_save_employees (employees : List Employee) : Rows :=
  employees.map row_of

/-- Function `find_employee_by_id` of src/manager.py (lines 56-60): the
first record whose id equals `empId`, if any. -/
def find_employee_by_id (empId : String) (employees : List Employee) : Option Employee :=
  employees.find? (fun e => e.id == empId)

/-- Function `add_employee` of src/manager.py (lines 63-69). -/
def add_employee (emp : Employee) (rows : Rows) : (Bool × String) × Rows :=
  let employees := load_employees rows
  if (find_employee_by_id (pystrip emp.id) employees).isSome then
    ((false, "ID already exists"), rows)
  else
    ((true, "Added"), atomic_save_employees (employees ++ [emp]))

/-- Function `delete_employee` of src/manager.py (lines 72-79). -/
def delete_employee (empId : String) (rows : Rows) : (Bool × String) × Rows :=
  let employees := load_employees rows
  let remaining := employees.filter (fun e => e.id != empId)
  if remaining.length = employees.length then
    ((false, "ID not found"), rows)
  else
    ((true, "Deleted"), atomic_save_employees remaining)

/-- Outcome of the search loop of `update_employee`. -/
inductive UpdateOutcome where
  | notFound
  | duplicate
  | replaced (employees : List Employee)
deriving DecidableEq

/-- The `for i, e in enumerate(employees)` loop of `update_employee`
(src/manager.py lines 85-92): at the first record whose id is `empId`,
either fail because the stripped new id differs from `empId` and collides
with a record of the full list `all`, or replace the record in place and
stop. -/
def update_go (empId : String) (updated : Employee) (all : List Employee) :
    List Employee → UpdateOutcome
  | [] => .notFound
  | e :: rest =>
    if e.id = empId then
      if pystrip updated.id ≠ empId ∧ (find_employee_by_id (pystrip updated.id) all).isSome then
        .duplicate
      else
        .replaced (updated :: rest)
    else
      match update_go empId updated all rest with
      | .notFound => .notFound
      | .duplicate => .duplicate
      | .replaced l => .replaced (e :: l)

/-- Function `update_employee` of src/manager.py (lines 82-96). -/
def update_employee (empId : String) (updated : Employee) (rows : Rows) :
    (Bool × String) × Rows :=
  let employees := load_employees rows
  match update_go empId updated employees employees with
  | .notFound => ((false, "ID not found"), rows)
  | .duplicate => ((false, "Target ID already exists"), rows)
  | .replaced l => ((true, "Updated"), atomic_save_employees l)

/-- Filesystem model for the crash analysis of `atomic_save_employees`:
the backing file content and the temporary file content (`none` when no
temporary file exists). -/
structure FS where
  main : Rows
  tmp : Option Rows
deriving DecidableEq

/-- One primitive filesystem step performed by `atomic_save_employees`. -/
inductive SaveStep where
  | mkstemp
  | writeRow (r : List String)
  | move
deriving DecidableEq

/-- Effect of one step: `mkstemp` creates the empty temporary file,
`writeRow` appends one row to the temporary file, and `move` models
`shutil.move`, atomically renaming the temporary file onto the backing
file. -/
def apply_step (fs : FS) : SaveStep → FS
  | .mkstemp => { main := fs.main, tmp := some [] }
  | .writeRow r => { main := fs.main, tmp := fs.tmp.map (fun t => t ++ [r]) }
  | .move =>
    match fs.tmp with
    | some t => { main := t, tmp := none }
    | none => fs

/-- The step sequence of `atomic_save_employees employees`
(src/manager.py lines 43-50): create the temporary file, write the row of
each record, then atomically move. -/
def save_steps (employees : List Employee) : List SaveStep :=
  .mkstemp :: employees.map (fun e => .writeRow (row_of e)) ++ [.move]

/-- All filesystem states reached while executing a step list, the initial
and the final state included: interrupting the execution leaves the
filesystem in one of these states. -/
def exec_states (fs : FS) : List SaveStep → List FS
  | [] => [fs]
  | s :: rest => fs :: exec_states (apply_step fs s) rest

/-- The `finally` block of `atomic_save_employees` (src/manager.py lines
51-53): remove the temporary file if it exists. -/
def run_finally (fs : FS) : FS :=
  if fs.tmp.isSome then { main := fs.main, tmp := none } else fs

/-- Record with all four fields stripped: this is how a record saved by
`atomic_save_employees` reads back through `load_employees`. -/
def stripEmployee (e : Employee) : Employee :=
  { id := pystrip e.id, name := pystrip e.name,
    department := pystrip e.department, role := pystrip e.role }

/-- Sample record used by concrete witnesses. -/
def empA : Employee := ⟨"000001", "Alice", "IT", "Dev"⟩

/-- Second sample record used by concrete witnesses. -/
def empB : Employee := ⟨"000002", "Bob", "HR", "Mgr"⟩

/-- Sample one-record file content used by concrete witnesses. -/
def rowsA : Rows := [["000001", "Alice", "IT", "Dev"]]

/-- Sample two-record file content used by concrete witnesses. -/
def rowsAB : Rows := [["000001", "Alice", "IT", "Dev"], ["000002", "Bob", "HR", "Mgr"]]

/-! Helper lemmas about stripping. -/

theorem exists_dropWhile_eq_append {α : Type} (p : α → Bool) (l : List α) :
    ∃ t, l = t ++ l.dropWhile p := by
  induction l with
  | nil => exact ⟨[], rfl⟩
  | cons a rest ih =>
    cases hpa : p a with
    | false =>
      refine ⟨[], ?_⟩
      rw [List.dropWhile_cons_of_neg (by simp [hpa])]
      rfl
    | true =>
      obtain ⟨t, ht⟩ := ih
      refine ⟨a :: t, ?_⟩
      rw [List.dropWhile_cons_of_pos (by simp [hpa]), List.cons_append]
      exact congrArg (a :: ·) ht

theorem dropWhile_eq_self_of_head {α : Type} (p : α → Bool) {m x : List α}
    (hm : m.dropWhile p = m) (hx : ∃ t, m = x ++ t) : x.dropWhile p = x := by
  obtain ⟨t, rfl⟩ := hx
  cases x with
  | nil => rfl
  | cons b y =>
    cases hpb : p b with
    | false => exact List.dropWhile_cons_of_neg (by simp [hpb])
    | true =>
      exfalso
      rw [List.cons_append, List.dropWhile_cons_of_pos (by simp [hpb])] at hm
      have h1 : ((y ++ t).dropWhile p).length ≤ (y ++ t).length :=
        (List.dropWhile_suffix p).length_le
      rw [hm] at h1
      simp [List.length_append] at h1

theorem stripChars_idem (l : List Char) : stripChars (stripChars l) = stripChars l := by
  have hq := List.dropWhile_idempotent Char.isWhitespace l
  unfold stripChars
  generalize hm : l.dropWhile Char.isWhitespace = m at hq ⊢
  generalize hn : m.reverse.dropWhile Char.isWhitespace = n
  have h1 : n.reverse.dropWhile Char.isWhitespace = n.reverse := by
    apply dropWhile_eq_self_of_head Char.isWhitespace hq
    obtain ⟨t, ht⟩ := exists_dropWhile_eq_append Char.isWhitespace m.reverse
    rw [hn] at ht
    exact ⟨t.reverse, by rw [← List.reverse_reverse m, ht, List.reverse_append]⟩
  rw [h1, List.reverse_reverse]
  have h2 : n.dropWhile Char.isWhitespace = n := by
    rw [← hn]
    exact List.dropWhile_idempotent Char.isWhitespace m.reverse
  rw [h2]

theorem pystrip_pystrip (s : String) : pystrip (pystrip s) = pystrip s := by
  simp only [pystrip]
  exact congrArg String.mk (stripChars_idem s.data)

theorem pystrip_empty : pystrip "" = "" := rfl

theorem stripEmployee_idem (e : Employee) : stripEmployee (stripEmployee e) = stripEmployee e := by
  simp [stripEmployee, pystrip_pystrip]

/-! Helper lemmas about parsing, loading and saving. -/

theorem parse_row_nil : parse_row [] = none := rfl

theorem parse_row_quad (a b c d : String) :
    parse_row [a, b, c, d] =
      some { id := pystrip a, name := pystrip b,
             department := pystrip c, role := pystrip d } := rfl

theorem parse_row_row_of (e : Employee) : parse_row (row_of e) = some (stripEmployee e) :=
  parse_row_quad e.id e.name e.department e.role

theorem load_atomic_save (l : List Employee) :
    load_employees (atomic_save_employees l) = l.map stripEmployee := by
  unfold load_employees atomic_save_employees
  rw [List.filterMap_map]
  have h : (parse_row ∘ row_of) = (some ∘ stripEmployee) :=
    funext fun e => parse_row_row_of e
  rw [h]
  exact congrFun (List.filterMap_eq_map stripEmployee) l

theorem stripEmployee_parse_row {row : List String} {e : Employee}
    (h : parse_row row = some e) : stripEmployee e = e := by
  unfold parse_row at h
  by_cases hrow : row = []
  · simp [hrow] at h
  · rw [if_neg hrow] at h
    have hmem : ∀ x ∈ row.map pystrip ++ List.replicate (4 - row.length) "",
        pystrip x = x := by
      intro x hx
      rcases List.mem_append.mp hx with hx1 | hx2
      · obtain ⟨y, _, rfl⟩ := List.mem_map.mp hx1
        exact pystrip_pystrip y
      · rw [List.eq_of_mem_replicate hx2]
        exact pystrip_empty
    have hgetD : ∀ k : Nat,
        pystrip ((row.map pystrip ++ List.replicate (4 - row.length) "").getD k "") =
          (row.map pystrip ++ List.replicate (4 - row.length) "").getD k "" := by
      intro k
      rw [List.getD_eq_getElem?_getD]
      cases hx : (row.map pystrip ++ List.replicate (4 - row.length) "")[k]? with
      | none => exact pystrip_empty
      | some x => exact hmem x (List.getElem?_mem hx)
    obtain rfl := (Option.some_injective _ h).symm
    simp only [stripEmployee]
    rw [hgetD 0, hgetD 1, hgetD 2, hgetD 3]

theorem stripEmployee_mem_load {rows : Rows} {e : Employee}
    (h : e ∈ load_employees rows) : stripEmployee e = e := by
  obtain ⟨row, _, hp⟩ := List.mem_filterMap.mp h
  exact stripEmployee_parse_row hp

theorem map_stripEmployee_load (rows : Rows) :
    (load_employees rows).map stripEmployee = load_employees rows := by
  have h1 : (load_employees rows).map stripEmployee = (load_employees rows).map id :=
    List.map_congr_left (fun e he => stripEmployee_mem_load he)
  rw [h1, List.map_id]

theorem load_save_load (rows : Rows) :
    load_employees (atomic_save_employees (load_employees rows)) = load_employees rows := by
  rw [load_atomic_save, map_stripEmployee_load]

/-! Helper lemmas about `find_employee_by_id` and the three operations. -/

theorem find_employee_by_id_isSome {empId : String} {l : List Employee} :
    (find_employee_by_id empId l).isSome ↔ ∃ e ∈ l, e.id = empId := by
  simp [find_employee_by_id, List.find?_isSome]

theorem find_employee_by_id_eq_none {empId : String} {l : List Employee} :
    find_employee_by_id empId l = none ↔ ∀ e ∈ l, e.id ≠ empId := by
  simp [find_employee_by_id, List.find?_eq_none]

theorem add_employee_dup {emp : Employee} {rows : Rows}
    (h : ∃ e ∈ load_employees rows, e.id = pystrip emp.id) :
    add_employee emp rows = ((false, "ID already exists"), rows) := by
  simp only [add_employee]
  rw [if_pos (find_employee_by_id_isSome.mpr h)]

theorem add_employee_ok {emp : Employee} {rows : Rows}
    (h : ∀ e ∈ load_employees rows, e.id ≠ pystrip emp.id) :
    add_employee emp rows =
      ((true, "Added"), atomic_save_employees (load_employees rows ++ [emp])) := by
  simp only [add_employee]
  rw [if_neg]
  rw [find_employee_by_id_isSome]
  rintro ⟨e, he, hid⟩
  exact h e he hid

theorem delete_employee_filter_eq {empId : String} {rows : Rows}
    (h : ∀ e ∈ load_employees rows, e.id ≠ empId) :
    (load_employees rows).filter (fun e => e.id != empId) = load_employees rows :=
  List.filter_eq_self.mpr (fun e he => by simpa using h e he)

theorem delete_employee_notFound {empId : String} {rows : Rows}
    (h : ∀ e ∈ load_employees rows, e.id ≠ empId) :
    delete_employee empId rows = ((false, "ID not found"), rows) := by
  simp only [delete_employee]
  rw [if_pos]
  rw [delete_employee_filter_eq h]

theorem delete_employee_length_lt {empId : String} {rows : Rows}
    (h : ∃ e ∈ load_employees rows, e.id = empId) :
    ((load_employees rows).filter (fun e => e.id != empId)).length <
      (load_employees rows).length := by
  obtain ⟨e, he, hid⟩ := h
  rcases Nat.lt_or_ge
      (((load_employees rows).filter (fun e => e.id != empId)).length)
      ((load_employees rows).length) with hlt | hge
  · exact hlt
  · exfalso
    have heq : (load_employees rows).filter (fun e => e.id != empId) =
        load_employees rows :=
      (List.filter_sublist _).eq_of_length
        (Nat.le_antisymm (List.length_filter_le _ _) hge)
    have := List.filter_eq_self.mp heq e he
    simp [hid] at this

theorem delete_employee_found {empId : String} {rows : Rows}
    (h : ∃ e ∈ load_employees rows, e.id = empId) :
    delete_employee empId rows =
      ((true, "Deleted"),
        atomic_save_employees
          ((load_employees rows).filter (fun e => e.id != empId))) := by
  simp only [delete_employee]
  rw [if_neg (Nat.ne_of_lt (delete_employee_length_lt h))]

theorem update_go_notFound {empId : String} {updated : Employee} {all : List Employee}
    {l : List Employee} (h : ∀ x ∈ l, x.id ≠ empId) :
    update_go empId updated all l = .notFound := by
  induction l with
  | nil => rfl
  | cons e rest ih =>
    rw [update_go, if_neg (h e (List.mem_cons_self e rest))]
    rw [ih (fun x hx => h x (List.mem_cons_of_mem e hx))]

theorem update_go_first {empId : String} {updated : Employee} {all : List Employee}
    (l1 : List Employee) (e : Employee) (l2 : List Employee)
    (h1 : ∀ x ∈ l1, x.id ≠ empId) (he : e.id = empId) :
    update_go empId updated all (l1 ++ e :: l2) =
      if pystrip updated.id ≠ empId ∧
          (find_employee_by_id (pystrip updated.id) all).isSome then
        .duplicate
      else
        .replaced (l1 ++ updated :: l2) := by
  induction l1 with
  | nil =>
    simp only [List.nil_append]
    rw [update_go, if_pos he]
  | cons a l1 ih =>
    rw [List.cons_append, update_go,
      if_neg (h1 a (List.mem_cons_self a l1)),
      ih (fun x hx => h1 x (List.mem_cons_of_mem a hx))]
    by_cases hdup : pystrip updated.id ≠ empId ∧
        (find_employee_by_id (pystrip updated.id) all).isSome
    · rw [if_pos hdup, if_pos hdup]
    · rw [if_neg hdup, if_neg hdup, List.cons_append]

theorem update_go_replaced {empId : String} {updated : Employee} {all : List Employee} :
    ∀ {l : List Employee} {out : List Employee},
      update_go empId updated all l = .replaced out →
      ∃ l1 e l2, l = l1 ++ e :: l2 ∧ e.id = empId ∧ (∀ x ∈ l1, x.id ≠ empId) ∧
        out = l1 ++ updated :: l2 ∧
        (pystrip updated.id = empId ∨
          find_employee_by_id (pystrip updated.id) all = none) := by
  intro l
  induction l with
  | nil => intro out h; exact absurd h (by rw [update_go]; intro h; cases h)
  | cons e rest ih =>
    intro out h
    rw [update_go] at h
    by_cases hid : e.id = empId
    · rw [if_pos hid] at h
      by_cases hdup : pystrip updated.id ≠ empId ∧
          (find_employee_by_id (pystrip updated.id) all).isSome
      · rw [if_pos hdup] at h
        cases h
      · rw [if_neg hdup] at h
        cases h
        refine ⟨[], e, rest, rfl, hid, by simp, rfl, ?_⟩
        rcases Decidable.not_and_iff_or_not.mp hdup with h1 | h2
        · exact Or.inl (Decidable.not_not.mp h1)
        · exact Or.inr (Option.not_isSome_iff_eq_none.mp h2)
    · rw [if_neg hid] at h
      cases hgo : update_go empId updated all rest with
      | notFound => rw [hgo] at h; cases h
      | duplicate => rw [hgo] at h; cases h
      | replaced l =>
        rw [hgo] at h
        cases h
        obtain ⟨l1, f, l2, hrest, hf, hl1, hout, hguard⟩ := ih hgo
        exact ⟨e :: l1, f, l2, by rw [hrest, List.cons_append],
          hf, by
            intro x hx
            rcases List.mem_cons.mp hx with rfl | hx2
            · exact hid
            · exact hl1 x hx2,
          by rw [hout, List.cons_append], hguard⟩

theorem update_employee_notFound {empId : String} {updated : Employee} {rows : Rows}
    (h : update_go empId updated (load_employees rows) (load_employees rows) = .notFound) :
    update_employee empId updated rows = ((false, "ID not found"), rows) := by
  simp only [update_employee, h]

theorem update_employee_duplicate {empId : String} {updated : Employee} {rows : Rows}
    (h : update_go empId updated (load_employees rows) (load_employees rows) = .duplicate) :
    update_employee empId updated rows = ((false, "Target ID already exists"), rows) := by
  simp only [update_employee, h]

theorem update_employee_replaced {empId : String} {updated : Employee} {rows : Rows}
    {l : List Employee}
    (h : update_go empId updated (load_employees rows) (load_employees rows) = .replaced l) :
    update_employee empId updated rows = ((true, "Updated"), atomic_save_employees l) := by
  simp only [update_employee, h]

/-! Helper lemmas for the crash model of the atomic save. -/

theorem exec_states_writes (l : List Employee) : ∀ (old t : Rows),
    ∀ fs ∈ exec_states ⟨old, some t⟩
        (l.map (fun e => SaveStep.writeRow (row_of e)) ++ [SaveStep.move]),
      fs.main = old ∨ fs.main = t ++ atomic_save_employees l := by
  induction l with
  | nil =>
    intro old t fs hfs
    simp only [List.map_nil, List.nil_append, exec_states, apply_step] at hfs
    rcases List.mem_cons.mp hfs with rfl | hfs2
    · exact Or.inl rfl
    · rcases List.mem_singleton.mp hfs2 with rfl
      exact Or.inr (by simp [atomic_save_employees])
  | cons e l ih =>
    intro old t fs hfs
    simp only [List.map_cons, List.cons_append, exec_states, apply_step,
      Option.map_some'] at hfs
    rcases List.mem_cons.mp hfs with rfl | hfs2
    · exact Or.inl rfl
    · rcases ih old (t ++ [row_of e]) fs hfs2 with h | h
      · exact Or.inl h
      · refine Or.inr ?_
        rw [h, List.append_assoc]
        simp [atomic_save_employees]

theorem foldl_writes (l : List Employee) : ∀ (old t : Rows),
    (l.map (fun e => SaveStep.writeRow (row_of e))).foldl apply_step ⟨old, some t⟩ =
      ⟨old, some (t ++ atomic_save_employees l)⟩ := by
  induction l with
  | nil => intro old t; simp [atomic_save_employees]
  | cons e l ih =>
    intro old t
    simp only [List.map_cons, List.foldl_cons, apply_step, Option.map_some']
    rw [ih old (t ++ [row_of e]), List.append_assoc]
    simp [atomic_save_employees]

theorem foldl_save_steps (employees : List Employee) (old : Rows) :
    (save_steps employees).foldl apply_step ⟨old, none⟩ =
      ⟨atomic_save_employees employees, none⟩ := by
  simp only [save_steps, List.foldl_cons, List.foldl_append, apply_step]
  rw [foldl_writes employees old []]
  simp [apply_step]

theorem run_finally_spec (fs : FS) :
    (run_finally fs).tmp = none ∧ (run_finally fs).main = fs.main := by
  unfold run_finally
  split
  · exact ⟨rfl, rfl⟩
  · next h =>
    refine ⟨?_, rfl⟩
    exact Option.not_isSome_iff_eq_none.mp h

/-! Helper lemma computing `parse_row` on any nonempty row. -/

theorem parse_row_eq (row : List String) (h : row ≠ []) :
    parse_row row = some
      { id := pystrip (row.getD 0 ""), name := pystrip (row.getD 1 ""),
        department := pystrip (row.getD 2 ""), role := pystrip (row.getD 3 "") } := by
  unfold parse_row
  rw [if_neg h]
  have key : ∀ k : Nat,
      (row.map pystrip ++ List.replicate (4 - row.length) "").getD k "" =
        pystrip (row.getD k "") := by
    intro k
    rw [List.getD_eq_getElem?_getD, List.getD_eq_getElem?_getD]
    by_cases hk : k < row.length
    · rw [List.getElem?_append_left (by simpa using hk), List.getElem?_map,
        List.getElem?_eq_getElem hk]
      rfl
    · push_neg at hk
      rw [List.getElem?_append_right (by simpa using hk),
        List.getElem?_eq_none hk, List.getElem?_replicate]
      split
      · exact pystrip_empty.symm
      · exact pystrip_empty.symm
  show some _ = some _
  rw [key 0, key 1, key 2, key 3]

theorem length_eq_four {α : Type} {l : List α} :
    l.length = 4 ↔ ∃ a b c d, l = [a, b, c, d] :=
  ⟨fun _ => let [a, b, c, d] := l; ⟨a, b, c, d, rfl⟩, fun ⟨_, _, _, _, e⟩ => e ▸ rfl⟩

/-- C7: for every nonempty row, `load_employees` parses it without failing
into one record, and a row with fewer than 4 fields has its missing
trailing fields padded with the empty string. -/
theorem load_employees_total_pads (row : List String) (h : row ≠ []) :
    ∃ e, parse_row row = some e ∧ load_employees [row] = [e] ∧
      (row.length ≤ 1 → e.name = "") ∧ (row.length ≤ 2 → e.department = "") ∧
      (row.length ≤ 3 → e.role = "") := by
  refine ⟨_, parse_row_eq row h, ?_, ?_, ?_, ?_⟩
  · show List.filterMap parse_row [row] = _
    rw [List.filterMap_cons_some (parse_row_eq row h)]
    rfl
  · intro hl
    show pystrip (row.getD 1 "") = ""
    rw [List.getD_eq_getElem?_getD, List.getElem?_eq_none hl]
    exact pystrip_empty
  · intro hl
    show pystrip (row.getD 2 "") = ""
    rw [List.getD_eq_getElem?_getD, List.getElem?_eq_none hl]
    exact pystrip_empty
  · intro hl
    show pystrip (row.getD 3 "") = ""
    rw [List.getD_eq_getElem?_getD, List.getElem?_eq_none hl]
    exact pystrip_empty

/-- Witness for C7 at the one-field row `["007"]`. -/
theorem load_employees_total_pads_witness :
    (["007"] : List String) ≠ [] ∧
      ∃ e, parse_row ["007"] = some e ∧ load_employees [["007"]] = [e] ∧
        ((["007"] : List String).length ≤ 1 → e.name = "") ∧
        ((["007"] : List String).length ≤ 2 → e.department = "") ∧
        ((["007"] : List String).length ≤ 3 → e.role = "") :=
  ⟨by decide, load_employees_total_pads ["007"] (by decide)⟩

/-- C9: a row with at least 4 fields is truncated to its first 4 fields,
extra fields are discarded, and every kept field is stripped of its
surrounding whitespace. -/
theorem load_employees_truncates (row : List String) (h : 4 ≤ row.length) :
    parse_row row = parse_row (row.take 4) ∧
    parse_row row = some
      { id := pystrip (row.getD 0 ""), name := pystrip (row.getD 1 ""),
        department := pystrip (row.getD 2 ""), role := pystrip (row.getD 3 "") } := by
  have hne : row ≠ [] := by
    intro hr
    rw [hr] at h
    simp at h
  have hne2 : row.take 4 ≠ [] := by
    have hlen : (row.take 4).length = 4 := by
      rw [List.length_take]
      omega
    intro hr
    rw [hr] at hlen
    simp at hlen
  constructor
  · rw [parse_row_eq row hne, parse_row_eq _ hne2]
    have hk : ∀ k : Nat, k < 4 → (row.take 4).getD k "" = row.getD k "" := by
      intro k hklt
      rw [List.getD_eq_getElem?_getD, List.getD_eq_getElem?_getD,
        List.getElem?_take_of_lt hklt]
    rw [hk 0 (by omega), hk 1 (by omega), hk 2 (by omega), hk 3 (by omega)]
  · exact parse_row_eq row hne

/-- Witness for C9 at a six-field row with whitespace around the fields. -/
theorem load_employees_truncates_witness :
    4 ≤ ([" 1 ", "b", "c", " d", "x", "y"] : List String).length ∧
      parse_row [" 1 ", "b", "c", " d", "x", "y"] =
        parse_row ([" 1 ", "b", "c", " d", "x", "y"].take 4) ∧
      parse_row [" 1 ", "b", "c", " d", "x", "y"] =
        some { id := pystrip ([" 1 ", "b", "c", " d", "x", "y"].getD 0 ""),
               name := pystrip ([" 1 ", "b", "c", " d", "x", "y"].getD 1 ""),
               department := pystrip ([" 1 ", "b", "c", " d", "x", "y"].getD 2 ""),
               role := pystrip ([" 1 ", "b", "c", " d", "x", "y"].getD 3 "") } :=
  ⟨by decide, load_employees_truncates [" 1 ", "b", "c", " d", "x", "y"] (by decide)⟩

/-- C10: blank rows are skipped by `load_employees` and produce no record:
the loaded sequence is exactly the parsed non-blank rows in file order. -/
theorem load_employees_skips_blank (rows : Rows) :
    load_employees rows = (rows.filter (fun r => !r.isEmpty)).filterMap parse_row ∧
    ∀ r1 r2 : Rows, load_employees (r1 ++ [] :: r2) = load_employees (r1 ++ r2) := by
  constructor
  · induction rows with
    | nil => rfl
    | cons r rest ih =>
      simp only [load_employees] at ih ⊢
      by_cases hr : r = []
      · subst hr
        rw [List.filterMap_cons_none parse_row_nil, List.filter_cons]
        simp only [List.isEmpty_nil, Bool.not_true, if_false]
        exact ih
      · have hcond : (!r.isEmpty) = true := by
          simp [List.isEmpty_iff, hr]
        rw [List.filter_cons, if_pos hcond]
        cases hp : parse_row r with
        | none =>
          rw [List.filterMap_cons_none hp, List.filterMap_cons_none hp]
          exact ih
        | some e =>
          rw [List.filterMap_cons_some hp, List.filterMap_cons_some hp, ih]
  · intro r1 r2
    unfold load_employees
    rw [List.filterMap_append, List.filterMap_append,
      List.filterMap_cons_none parse_row_nil]

/-- C5 counterexample: saving the result of loading a two-field row does
not reproduce the original content (the row is padded to four fields), so
save-after-load is not a no-op on arbitrary content. -/
theorem save_load_not_id :
    atomic_save_employees (load_employees [["a", "b"]]) ≠ [["a", "b"]] := by decide

/-- C5 amended: for file content already in canonical saved form (every
row has exactly 4 fields, each free of surrounding whitespace), saving the
result of load reproduces the content exactly. -/
theorem save_load_canonical (rows : Rows)
    (h : ∀ r ∈ rows, r.length = 4 ∧ r.map pystrip = r) :
    atomic_save_employees (load_employees rows) = rows := by
  induction rows with
  | nil => rfl
  | cons r rest ih =>
    have hr := h r (List.mem_cons_self r rest)
    have hrest : ∀ x ∈ rest, x.length = 4 ∧ x.map pystrip = x :=
      fun x hx => h x (List.mem_cons_of_mem r hx)
    obtain ⟨a, b, c, d, rfl⟩ := length_eq_four.mp hr.1
    have hab : pystrip a = a ∧ pystrip b = b ∧ pystrip c = c ∧ pystrip d = d := by
      have hmap := hr.2
      simp only [List.map_cons, List.map_nil, List.cons.injEq, List.nil_eq] at hmap
      exact ⟨hmap.1, hmap.2.1, hmap.2.2.1, hmap.2.2.2.1⟩
    show atomic_save_employees (List.filterMap parse_row ([a, b, c, d] :: rest)) = _
    rw [List.filterMap_cons_some (parse_row_quad a b c d)]
    show List.map row_of _ = _
    rw [List.map_cons]
    have hrow : row_of ⟨pystrip a, pystrip b, pystrip c, pystrip d⟩ = [a, b, c, d] := by
      simp [row_of, hab.1, hab.2.1, hab.2.2.1, hab.2.2.2]
    rw [hrow]
    exact congrArg (fun l => [a, b, c, d] :: l) (ih hrest)

/-- Witness for the amended C5 at a canonical one-row content. -/
theorem save_load_canonical_witness :
    (∀ r ∈ ([[ "000001", "Alice", "IT", "Dev" ]] : Rows),
        r.length = 4 ∧ r.map pystrip = r) ∧
      atomic_save_employees (load_employees [[ "000001", "Alice", "IT", "Dev" ]]) =
        [[ "000001", "Alice", "IT", "Dev" ]] :=
  ⟨by decide, save_load_canonical [[ "000001", "Alice", "IT", "Dev" ]] (by decide)⟩

/-- C3: `add_employee` fails with DuplicateID when a record with the same
id exists; otherwise it appends the record and persists, a subsequent load
contains the new record exactly once, and a second add with the same id
fails with DuplicateID.  The record is assumed free of surrounding
whitespace, as all records produced by the system are. -/
theorem add_employee_spec (rows : Rows) (emp : Employee)
    (hT : stripEmployee emp = emp) :
    ((∃ e ∈ load_employees rows, e.id = emp.id) →
       add_employee emp rows = ((false, "ID already exists"), rows)) ∧
    ((∀ e ∈ load_employees rows, e.id ≠ emp.id) →
       add_employee emp rows =
         ((true, "Added"), atomic_save_employees (load_employees rows ++ [emp])) ∧
       (load_employees (add_employee emp rows).2).count emp = 1 ∧
       (add_employee emp (add_employee emp rows).2).1 = (false, "ID already exists")) := by
  have hid : pystrip emp.id = emp.id := congrArg Employee.id hT
  constructor
  · intro hex
    apply add_employee_dup
    rw [hid]
    exact hex
  · intro hall
    have hall2 : ∀ e ∈ load_employees rows, e.id ≠ pystrip emp.id := by
      rw [hid]
      exact hall
    have hadd := add_employee_ok hall2
    have h2 : (add_employee emp rows).2 =
        atomic_save_employees (load_employees rows ++ [emp]) := by
      rw [hadd]
    refine ⟨hadd, ?_, ?_⟩
    · rw [h2, load_atomic_save, List.map_append, map_stripEmployee_load,
        List.map_cons, List.map_nil, hT, List.count_append]
      have h0 : (load_employees rows).count emp = 0 :=
        List.count_eq_zero.mpr (fun hmem => hall emp hmem rfl)
      rw [h0, List.count_singleton_self]
    · rw [h2]
      have hmem : ∃ e ∈ load_employees
          (atomic_save_employees (load_employees rows ++ [emp])),
          e.id = pystrip emp.id := by
        rw [load_atomic_save, List.map_append, map_stripEmployee_load]
        refine ⟨stripEmployee emp, ?_, ?_⟩
        · exact List.mem_append_right _ (by simp)
        · rw [hT, hid]
      rw [add_employee_dup hmem]

/-- Witness for C3: adding a fresh record to the one-record store. -/
theorem add_employee_spec_witness :
    stripEmployee empB = empB ∧
    ((∀ e ∈ load_employees rowsA, e.id ≠ empB.id) →
       add_employee empB rowsA =
         ((true, "Added"), atomic_save_employees (load_employees rowsA ++ [empB])) ∧
       (load_employees (add_employee empB rowsA).2).count empB = 1 ∧
       (add_employee empB (add_employee empB rowsA).2).1 = (false, "ID already exists")) :=
  ⟨by decide, (add_employee_spec rowsA empB (by decide)).2⟩

/-- C4: `delete_employee` fails with NotFound exactly when no record with
the given id exists; when a matching record exists it removes exactly that
record, keeps the relative order of the others, and persists.  The stored
collection is assumed to satisfy the uniqueness invariant. -/
theorem delete_employee_spec (rows : Rows) (empId : String)
    (hN : ((load_employees rows).map Employee.id).Nodup) :
    (delete_employee empId rows = ((false, "ID not found"), rows) ↔
       ∀ e ∈ load_employees rows, e.id ≠ empId) ∧
    (∀ l1 e l2, load_employees rows = l1 ++ e :: l2 → e.id = empId →
       delete_employee empId rows =
         ((true, "Deleted"), atomic_save_employees (l1 ++ l2))) := by
  constructor
  · constructor
    · intro hdel
      by_contra hex
      push_neg at hex
      rw [delete_employee_found hex] at hdel
      simp at hdel
    · exact delete_employee_notFound
  · intro l1 e l2 hsplit hide
    have hex : ∃ x ∈ load_employees rows, x.id = empId :=
      ⟨e, by
        rw [hsplit]
        exact List.mem_append_right _ (List.mem_cons_self e l2), hide⟩
    have hothers : ∀ x ∈ l1 ++ l2, x.id ≠ empId := by
      rw [hsplit, List.map_append, List.map_cons] at hN
      have hmid := List.nodup_middle.mp hN
      have hnotmem := (List.nodup_cons.mp hmid).1
      intro x hx hxid
      apply hnotmem
      rw [← List.map_append]
      exact List.mem_map.mpr ⟨x, hx, hxid.trans hide.symm⟩
    have hfilter : (load_employees rows).filter (fun x => x.id != empId) = l1 ++ l2 := by
      have hcond : ¬((e.id != empId) = true) := by simp [hide]
      rw [hsplit, List.filter_append, List.filter_cons, if_neg hcond]
      rw [List.filter_eq_self.mpr
          (fun x hx => by simpa using hothers x (List.mem_append_left _ hx)),
        List.filter_eq_self.mpr
          (fun x hx => by simpa using hothers x (List.mem_append_right _ hx))]
    rw [delete_employee_found hex, hfilter]

/-- Witness for C4: deleting the second record of the two-record store. -/
theorem delete_employee_spec_witness :
    delete_employee "000002" rowsAB =
      ((true, "Deleted"), atomic_save_employees ([empA] ++ [])) :=
  (delete_employee_spec rowsAB "000002" (by decide)).2 [empA] empB []
    (by decide) (by decide)

/-- C2: `update_employee` fails with NotFound when no record has the given
id; when the new id differs from the given id and collides with another
existing record it fails with DuplicateID; otherwise it replaces the
matching record at its original position, preserving the order of all
records, and persists.  The stored collection is assumed to satisfy the
uniqueness invariant and the new record to be free of surrounding
whitespace, as all records produced by the system are. -/
theorem update_employee_spec (rows : Rows) (empId : String) (updated : Employee)
    (hN : ((load_employees rows).map Employee.id).Nodup)
    (hT : stripEmployee updated = updated) :
    ((∀ e ∈ load_employees rows, e.id ≠ empId) →
       update_employee empId updated rows = ((false, "ID not found"), rows)) ∧
    (∀ l1 e l2, load_employees rows = l1 ++ e :: l2 → e.id = empId →
      ((updated.id ≠ empId ∧ ∃ x ∈ load_employees rows, x.id = updated.id) →
         update_employee empId updated rows =
           ((false, "Target ID already exists"), rows)) ∧
      ((updated.id = empId ∨ ∀ x ∈ load_employees rows, x.id ≠ updated.id) →
         update_employee empId updated rows =
           ((true, "Updated"), atomic_save_employees (l1 ++ updated :: l2)))) := by
  have hid : pystrip updated.id = updated.id := congrArg Employee.id hT
  constructor
  · intro hnone
    exact update_employee_notFound (update_go_notFound hnone)
  · intro l1 e l2 hsplit hide
    have hl1 : ∀ x ∈ l1, x.id ≠ empId := by
      rw [hsplit, List.map_append, List.map_cons] at hN
      have hnotmem := (List.nodup_cons.mp (List.nodup_middle.mp hN)).1
      intro x hx hxid
      apply hnotmem
      rw [← List.map_append]
      exact List.mem_map.mpr ⟨x, List.mem_append_left _ hx, hxid.trans hide.symm⟩
    constructor
    · rintro ⟨hne, hex⟩
      apply update_employee_duplicate
      rw [hsplit, update_go_first l1 e l2 hl1 hide, if_pos]
      constructor
      · rw [hid]
        exact hne
      · obtain ⟨x, hx, hxid⟩ := hex
        refine find_employee_by_id_isSome.mpr ⟨x, ?_, ?_⟩
        · rw [← hsplit]
          exact hx
        · rw [hid]
          exact hxid
    · intro hok
      apply update_employee_replaced
      rw [hsplit, update_go_first l1 e l2 hl1 hide, if_neg]
      rintro ⟨h1, h2⟩
      rcases hok with heq | hall
      · exact h1 (by rw [hid, heq])
      · obtain ⟨x, hx, hxid⟩ := find_employee_by_id_isSome.mp h2
        refine hall x ?_ ?_
        · rw [hsplit]
          exact hx
        · rw [← hid]
          exact hxid

/-- Witness for C2: updating the non-id fields of the second record in the
two-record store, preserving its position. -/
theorem update_employee_spec_witness :
    update_employee "000002" ⟨"000002", "Bobby", "HR", "Lead"⟩ rowsAB =
      ((true, "Updated"),
        atomic_save_employees ([empA] ++ ⟨"000002", "Bobby", "HR", "Lead"⟩ :: [])) :=
  ((update_employee_spec rowsAB "000002" ⟨"000002", "Bobby", "HR", "Lead"⟩
      (by decide) (by decide)).2 [empA] empB [] (by decide) (by decide)).2
    (Or.inl (by decide))

theorem load_save_ids (l : List Employee) :
    (load_employees (atomic_save_employees l)).map Employee.id =
      l.map (fun e => pystrip e.id) := by
  rw [load_atomic_save, List.map_map]
  rfl

theorem map_pystrip_id_load {l : List Employee} {rows : Rows}
    (h : ∀ x ∈ l, x ∈ load_employees rows) :
    l.map (fun e => pystrip e.id) = l.map Employee.id :=
  List.map_congr_left
    (fun x hx => congrArg Employee.id (stripEmployee_mem_load (h x hx)))

/-- C1: on a store whose records have pairwise distinct ids, each of the
three mutating operations leaves the persisted store with pairwise
distinct ids, whether it reports success or failure. -/
theorem crud_preserves_unique_ids (rows : Rows) (emp updated : Employee) (empId : String)
    (hN : ((load_employees rows).map Employee.id).Nodup) :
    ((load_employees (add_employee emp rows).2).map Employee.id).Nodup ∧
    ((load_employees (update_employee empId updated rows).2).map Employee.id).Nodup ∧
    ((load_employees (delete_employee empId rows).2).map Employee.id).Nodup := by
  refine ⟨?_, ?_, ?_⟩
  · by_cases hdup : ∃ x ∈ load_employees rows, x.id = pystrip emp.id
    · have h2 : (add_employee emp rows).2 = rows := by rw [add_employee_dup hdup]
      rw [h2]
      exact hN
    · push_neg at hdup
      have h2 : (add_employee emp rows).2 =
          atomic_save_employees (load_employees rows ++ [emp]) := by
        rw [add_employee_ok hdup]
      rw [h2, load_save_ids, List.map_append,
        map_pystrip_id_load (fun x hx => hx), List.map_cons, List.map_nil]
      rw [List.nodup_append]
      refine ⟨hN, List.nodup_singleton _, ?_⟩
      intro a ha hb
      rw [List.mem_singleton] at hb
      obtain ⟨x, hx, rfl⟩ := List.mem_map.mp ha
      exact hdup x hx hb
  · cases hgo : update_go empId updated (load_employees rows) (load_employees rows) with
    | notFound =>
      have h2 : (update_employee empId updated rows).2 = rows := by
        rw [update_employee_notFound hgo]
      rw [h2]
      exact hN
    | duplicate =>
      have h2 : (update_employee empId updated rows).2 = rows := by
        rw [update_employee_duplicate hgo]
      rw [h2]
      exact hN
    | replaced l =>
      have h2 : (update_employee empId updated rows).2 = atomic_save_employees l := by
        rw [update_employee_replaced hgo]
      obtain ⟨l1, e, l2, hsplit, hide, _, rfl, hguard⟩ := update_go_replaced hgo
      have hsub : ∀ x ∈ l1 ++ l2, x ∈ load_employees rows := by
        intro x hx
        rw [hsplit]
        rcases List.mem_append.mp hx with hx1 | hx2
        · exact List.mem_append_left _ hx1
        · exact List.mem_append_right _ (List.mem_cons_of_mem e hx2)
      rw [h2, load_save_ids, List.map_append, List.map_cons,
        map_pystrip_id_load (fun x hx => hsub x (List.mem_append_left _ hx)),
        map_pystrip_id_load (fun x hx => hsub x (List.mem_append_right _ hx))]
      rw [List.nodup_middle, List.nodup_cons]
      rw [hsplit, List.map_append, List.map_cons] at hN
      have hN2 := List.nodup_cons.mp (List.nodup_middle.mp hN)
      refine ⟨?_, hN2.2⟩
      rcases hguard with heq | hnone
      · rw [heq, ← hide]
        exact hN2.1
      · intro hmem
        rw [← List.map_append] at hmem
        obtain ⟨x, hx, hxid⟩ := List.mem_map.mp hmem
        exact find_employee_by_id_eq_none.mp hnone x (hsub x hx) hxid
  · by_cases hex : ∃ x ∈ load_employees rows, x.id = empId
    · have h2 : (delete_employee empId rows).2 =
          atomic_save_employees
            ((load_employees rows).filter (fun e => e.id != empId)) := by
        rw [delete_employee_found hex]
      rw [h2, load_save_ids,
        map_pystrip_id_load (fun x hx => List.mem_of_mem_filter hx)]
      exact ((List.filter_sublist _).map Employee.id).nodup hN
    · push_neg at hex
      have h2 : (delete_employee empId rows).2 = rows := by
        rw [delete_employee_notFound hex]
      rw [h2]
      exact hN

/-- Witness for C1 at the two-record store. -/
theorem crud_preserves_unique_ids_witness :
    ((load_employees (add_employee empB rowsAB).2).map Employee.id).Nodup ∧
    ((load_employees (update_employee "000001" empB rowsAB).2).map Employee.id).Nodup ∧
    ((load_employees (delete_employee "000001" rowsAB).2).map Employee.id).Nodup :=
  crud_preserves_unique_ids rowsAB empB empB "000001" (by decide)

/-- C6: whenever a mutating operation reports failure (its success flag is
`false`), the persisted store is exactly what it was before the call. -/
theorem mutation_failure_preserves_store (rows : Rows) (emp updated : Employee)
    (empId : String) :
    ((add_employee emp rows).1.1 = false → (add_employee emp rows).2 = rows) ∧
    ((update_employee empId updated rows).1.1 = false →
       (update_employee empId updated rows).2 = rows) ∧
    ((delete_employee empId rows).1.1 = false → (delete_employee empId rows).2 = rows) := by
  refine ⟨?_, ?_, ?_⟩
  · by_cases hdup : ∃ x ∈ load_employees rows, x.id = pystrip emp.id
    · intro _
      rw [add_employee_dup hdup]
    · push_neg at hdup
      rw [add_employee_ok hdup]
      intro hfalse
      simp at hfalse
  · cases hgo : update_go empId updated (load_employees rows) (load_employees rows) with
    | notFound =>
      intro _
      rw [update_employee_notFound hgo]
    | duplicate =>
      intro _
      rw [update_employee_duplicate hgo]
    | replaced l =>
      rw [update_employee_replaced hgo]
      intro hfalse
      simp at hfalse
  · by_cases hex : ∃ x ∈ load_employees rows, x.id = empId
    · rw [delete_employee_found hex]
      intro hfalse
      simp at hfalse
    · push_neg at hex
      intro _
      rw [delete_employee_notFound hex]

/-- Witness for C6: a duplicate add and a not-found update and delete on
the one-record store all fail and leave the store unchanged. -/
theorem mutation_failure_preserves_store_witness :
    (add_employee empA rowsA).2 = rowsA ∧
    (update_employee "000099" empB rowsA).2 = rowsA ∧
    (delete_employee "000099" rowsA).2 = rowsA :=
  ⟨(mutation_failure_preserves_store rowsA empA empB "000099").1 (by decide),
   (mutation_failure_preserves_store rowsA empA empB "000099").2.1 (by decide),
   (mutation_failure_preserves_store rowsA empA empB "000099").2.2 (by decide)⟩

/-- C8: along the step sequence of `atomic_save_employees` (create temp
file, write rows to it, atomic move), every intermediate filesystem state
holds either the complete old or the complete new content in the backing
file; the run ends with the new content and no temp file; and running the
`finally` cleanup at any intermediate point removes the temp file without
touching the backing file. -/
theorem atomic_save_crash_safe (employees : List Employee) (old : Rows) :
    (∀ fs ∈ exec_states ⟨old, none⟩ (save_steps employees),
       fs.main = old ∨ fs.main = atomic_save_employees employees) ∧
    (save_steps employees).foldl apply_step ⟨old, none⟩ =
      ⟨atomic_save_employees employees, none⟩ ∧
    ∀ fs ∈ exec_states ⟨old, none⟩ (save_steps employees),
      (run_finally fs).tmp = none ∧ (run_finally fs).main = fs.main := by
  refine ⟨?_, foldl_save_steps employees old, fun fs _ => run_finally_spec fs⟩
  intro fs hfs
  simp only [save_steps, exec_states, apply_step] at hfs
  rcases List.mem_cons.mp hfs with rfl | hfs2
  · exact Or.inl rfl
  · rcases exec_states_writes employees old [] fs hfs2 with h | h
    · exact Or.inl h
    · right
      rw [h, List.nil_append]

/-- Witness for C8: saving one record over the two-record content. -/
theorem atomic_save_crash_safe_witness :
    (∀ fs ∈ exec_states ⟨rowsAB, none⟩ (save_steps [empA]),
       fs.main = rowsAB ∨ fs.main = atomic_save_employees [empA]) ∧
    (save_steps [empA]).foldl apply_step ⟨rowsAB, none⟩ =
      ⟨atomic_save_employees [empA], none⟩ ∧
    ∀ fs ∈ exec_states ⟨rowsAB, none⟩ (save_steps [empA]),
      (run_finally fs).tmp = none ∧ (run_finally fs).main = fs.main :=
  atomic_save_crash_safe [empA] rowsAB

end EmployeeManager
